import Mathlib

/-!
A shallow embedding of the name-reconciliation and aggregation pipeline of
the ReferendumExplorer repository (file src/main.py), together with theorems
settling the behavioural claims about it.

Modelling conventions.
Strings are modelled as lists of characters.  Python float values are
modelled as rational numbers; every numeric literal occurring in the claims
is an exact decimal, and the similarity-ratio comparisons in scope are made
between fractions with small denominators, far apart from the 0.83 cutoff,
so double rounding cannot change any comparison that the claims mention.
Missing values (NaN in pandas) are modelled as the none case of Option.
Python exceptions raised by build_canton_votes are modelled by the error
case of Except.  Definitions are executable so that concrete runs of the
pipeline can be evaluated inside proofs by the decide tactic.
-/

-- The arithmetic on Rat is sealed against unfolding by default; the
-- concrete pipeline runs in the proofs below are evaluated by decide,
-- which needs these operations to reduce.
unseal Rat.add Rat.mul Rat.inv Rat.sub

namespace ReferendumExplorer

/-- Strings of the source program, modelled as lists of characters. -/
abbrev Str := List Char

/-- Coerce a Lean string literal to the character-list model. -/
def lit (s : String) : Str := s.data

/-! ## Generic list utilities used by the embedding -/

/-- Worker for deduplication keeping the first occurrence of each element
(the order in which Python dict keys and pandas unique values are kept). -/
def dkfGo {α} [DecidableEq α] (seen : List α) : List α → List α
  | [] => []
  | x :: xs => if x ∈ seen then dkfGo seen xs else x :: dkfGo (x :: seen) xs

/-- Deduplicate a list keeping the first occurrence of each element. -/
def dedupKeepFirst {α} [DecidableEq α] (l : List α) : List α := dkfGo [] l

/-- First some in a list of options (the first early return of a loop). -/
def firstSome {α} : List (Option α) → Option α
  | [] => none
  | some x :: _ => some x
  | none :: rest => firstSome rest

/-- Does the list start with the given other list?  Used for substring
containment below. -/
def startsWithCL : Str → Str → Bool
  | _, [] => true
  | [], _ :: _ => false
  | a :: as, b :: bs => a = b && startsWithCL as bs

/-- Python substring containment: hasSub hay needle is true when needle
occurs contiguously inside hay (the Python expression needle in hay). -/
def hasSub : Str → Str → Bool
  | hay, needle =>
    if startsWithCL hay needle then true
    else match hay with
    | [] => false
    | _ :: t => hasSub t needle

/-- Strict lexicographic comparison of strings by code points, the Python
comparison used by sorted and by tuple comparison on ties. -/
def lexLt : Str → Str → Bool
  | [], [] => false
  | [], _ :: _ => true
  | _ :: _, [] => false
  | a :: as, b :: bs => if a = b then lexLt as bs else decide (a.toNat < b.toNat)

/-- Insert a string into a (sorted) list, ascending by lexLt. -/
def insertStr (x : Str) : List Str → List Str
  | [] => [x]
  | y :: ys => if lexLt y x then y :: insertStr x ys else x :: y :: ys

/-- Insertion sort of strings, the model of the Python sorted builtin
(inputs are deduplicated beforehand, so stability is immaterial). -/
def sortStrings : List Str → List Str
  | [] => []
  | x :: xs => insertStr x (sortStrings xs)

/-- Python list indexing with an integer index: nonnegative indices count
from the front, negative indices count from the back, and anything out of
range is an IndexError, modelled as none. -/
def pyIndex {α} (l : List α) (i : Int) : Option α :=
  if 0 ≤ i then l.get? i.toNat
  else
    let j : Int := (l.length : Int) + i
    if 0 ≤ j then l.get? j.toNat else none

/-- Lookup in an association list with the semantics of a Python dict
built by inserting the pairs in order: a later binding of the same key
overwrites an earlier one, so the last binding wins. -/
def dgetLast {α β} [DecidableEq α] : List (α × β) → α → Option β
  | [], _ => none
  | (k, v) :: rest, q =>
    match dgetLast rest q with
    | some r => some r
    | none => if k = q then some v else none

/-! ## Character-level tables

The source relies on Python str.upper, str.lower and on accent stripping
through unicodedata NFD decomposition.  The tables below cover ASCII and
the Latin-1 letters that occur in the Swiss data (canton names, category
names, aliases); all other characters are left unchanged, as Python does
for characters with no case mapping or decomposition. -/

/-- Python str.upper on a single character.  The result is a list because
the sharp s expands to a two-character string.  Covers ASCII and Latin-1. -/
def pyToUpper (c : Char) : Str :=
  let n := c.toNat
  if 97 ≤ n ∧ n ≤ 122 then [Char.ofNat (n - 32)]
  else if n = 0xDF then [Char.ofNat 83, Char.ofNat 83]
  else if 0xE0 ≤ n ∧ n ≤ 0xFE ∧ n ≠ 0xF7 then [Char.ofNat (n - 32)]
  else if n = 0xFF then [Char.ofNat 0x178]
  else [c]

/-- Python str.upper on a string. -/
def pyUpper (s : Str) : Str := s.flatMap pyToUpper

/-- Python str.lower on a single character (no expansion cases arise in
the covered range). -/
def pyToLower (c : Char) : Char :=
  let n := c.toNat
  if 65 ≤ n ∧ n ≤ 90 then Char.ofNat (n + 32)
  else if 0xC0 ≤ n ∧ n ≤ 0xDE ∧ n ≠ 0xD7 then Char.ofNat (n + 32)
  else if n = 0x178 then Char.ofNat 0xFF
  else c

/-- Python str.lower on a string. -/
def pyLower (s : Str) : Str := s.map pyToLower

/-- Unicode NFD decomposition of a single character, for the Latin-1
letters with a canonical decomposition into a base letter followed by a
combining mark; every other character decomposes to itself. -/
def nfdChar (c : Char) : Str :=
  let base (b : Char) (mark : Nat) : Str := [b, Char.ofNat mark]
  match c with
  | 'À' => base 'A' 0x300 | 'Á' => base 'A' 0x301 | 'Â' => base 'A' 0x302
  | 'Ã' => base 'A' 0x303 | 'Ä' => base 'A' 0x308 | 'Å' => base 'A' 0x30A
  | 'Ç' => base 'C' 0x327
  | 'È' => base 'E' 0x300 | 'É' => base 'E' 0x301 | 'Ê' => base 'E' 0x302
  | 'Ë' => base 'E' 0x308
  | 'Ì' => base 'I' 0x300 | 'Í' => base 'I' 0x301 | 'Î' => base 'I' 0x302
  | 'Ï' => base 'I' 0x308
  | 'Ñ' => base 'N' 0x303
  | 'Ò' => base 'O' 0x300 | 'Ó' => base 'O' 0x301 | 'Ô' => base 'O' 0x302
  | 'Õ' => base 'O' 0x303 | 'Ö' => base 'O' 0x308
  | 'Ù' => base 'U' 0x300 | 'Ú' => base 'U' 0x301 | 'Û' => base 'U' 0x302
  | 'Ü' => base 'U' 0x308
  | 'Ý' => base 'Y' 0x301
  | 'à' => base 'a' 0x300 | 'á' => base 'a' 0x301 | 'â' => base 'a' 0x302
  | 'ã' => base 'a' 0x303 | 'ä' => base 'a' 0x308 | 'å' => base 'a' 0x30A
  | 'ç' => base 'c' 0x327
  | 'è' => base 'e' 0x300 | 'é' => base 'e' 0x301 | 'ê' => base 'e' 0x302
  | 'ë' => base 'e' 0x308
  | 'ì' => base 'i' 0x300 | 'í' => base 'i' 0x301 | 'î' => base 'i' 0x302
  | 'ï' => base 'i' 0x308
  | 'ñ' => base 'n' 0x303
  | 'ò' => base 'o' 0x300 | 'ó' => base 'o' 0x301 | 'ô' => base 'o' 0x302
  | 'õ' => base 'o' 0x303 | 'ö' => base 'o' 0x308
  | 'ù' => base 'u' 0x300 | 'ú' => base 'u' 0x301 | 'û' => base 'u' 0x302
  | 'ü' => base 'u' 0x308
  | 'ý' => base 'y' 0x301 | 'ÿ' => base 'y' 0x308
  | c => [c]

/-- Is the character a combining mark (Unicode category Mn)?  Restricted
to the combining-diacritics block, which contains every mark produced by
the decompositions above. -/
def isMn (c : Char) : Bool := 0x300 ≤ c.toNat && c.toNat ≤ 0x36F

/-- The function strip_accents of src/main.py: NFD-normalize, then keep
only characters that are not combining marks. -/
def strip_accents (s : Str) : Str := (s.flatMap nfdChar).filter (fun c => ¬ isMn c)

/-! ## Number parsing (clean_number_series)

The source converts a series of locale-formatted strings to numbers:
it removes narrow no-break spaces, no-break spaces, apostrophes and
spaces, replaces every comma by a dot, and hands the result to
pandas to_numeric with errors coerce, which yields NaN for anything
that does not parse as a number.  The numeric grammar modelled here is
sign, digits with at most one dot and at least one digit, and an
optional exponent part; special spellings such as inf do not occur in
the data and are outside the model. -/

/-- Is the character an ASCII digit? -/
def isDigitCh (c : Char) : Bool := 48 ≤ c.toNat && c.toNat ≤ 57

/-- Numeric value of a digit string read in base 10. -/
def digitsToNat (l : Str) : Nat := l.foldl (fun a c => a * 10 + (c.toNat - 48)) 0

/-- Parse a decimal number with optional sign, fraction and exponent;
none when the string is not a number.  Models float conversion of the
already separator-stripped text. -/
def parseDec (l : Str) : Option ℚ :=
  let sgn : ℚ × Str :=
    match l with
    | '+' :: r => (1, r)
    | '-' :: r => (-1, r)
    | _ => (1, l)
  let ip := sgn.2.takeWhile isDigitCh
  let r1 := sgn.2.dropWhile isDigitCh
  let fpr : Str × Str :=
    match r1 with
    | '.' :: r => (r.takeWhile isDigitCh, r.dropWhile isDigitCh)
    | _ => ([], r1)
  if ip = [] ∧ fpr.1 = [] then none
  else
    let mant : ℚ := (digitsToNat ip : ℚ) + (digitsToNat fpr.1 : ℚ) / ((10 : ℚ) ^ fpr.1.length)
    match fpr.2 with
    | [] => some (sgn.1 * mant)
    | e :: r3 =>
      if e = 'e' ∨ e = 'E' then
        let esgn : Int × Str :=
          match r3 with
          | '+' :: r => (1, r)
          | '-' :: r => (-1, r)
          | _ => (1, r3)
        let ed := esgn.2.takeWhile isDigitCh
        if ed = [] ∨ esgn.2.dropWhile isDigitCh ≠ [] then none
        else some (sgn.1 * mant * (10 : ℚ) ^ (esgn.1 * (digitsToNat ed : Int)))
      else none

/-- The separator characters removed by the regular expression of
clean_number_series: narrow no-break space, no-break space, apostrophe
and space. -/
def sepChars : Str := [Char.ofNat 0x202F, Char.ofNat 0xA0, Char.ofNat 39, Char.ofNat 32]

/-- Parse one value the way clean_number_series treats one series entry:
strip separators, turn commas into dots, convert to a number, with
unparsable input giving the absent value.  Total by construction, so the
conversion never raises. -/
def cleanNumber (s : Str) : Option ℚ :=
  let stripped := s.filter (fun c => c ∉ sepChars)
  let replaced := stripped.map (fun c => if c = ',' then '.' else c)
  parseDec replaced

/-- The function clean_number_series of src/main.py, acting elementwise on
a series of raw strings. -/
def clean_number_series (l : List Str) : List (Option ℚ) := l.map cleanNumber

/-! ## The difflib similarity machinery

normalize_canton_names falls back to difflib get_close_matches with
n = 1 and cutoff 0.83.  The ratio of SequenceMatcher is the
Ratcliff-Obershelp measure: twice the total size of the matching blocks
divided by the total length.  find_longest_match returns the longest
matching block, and among blocks of maximal size the one starting
earliest in the first sequence, then earliest in the second (no junk is
involved: the autojunk heuristic only fires on sequences of length at
least 200, far above the canton-name lengths). -/

/-- Length of the longest common prefix of two strings. -/
def commonRun : Str → Str → Nat
  | a :: as, b :: bs => if a = b then commonRun as bs + 1 else 0
  | _, _ => 0

/-- find_longest_match on whole strings: the triple of start position in
a, start position in b and size of the longest matching block, ties
broken by the earliest start in a and then in b.  Scanning in ascending
order and replacing only on a strictly larger size realises exactly that
tie break. -/
def flm (a b : Str) : Nat × Nat × Nat :=
  (List.range a.length).foldl
    (fun best i =>
      (List.range b.length).foldl
        (fun best j =>
          let k := commonRun (a.drop i) (b.drop j)
          if best.2.2 < k then (i, j, k) else best)
        best)
    (0, 0, 0)

theorem commonRun_le_left (a b : Str) : commonRun a b ≤ a.length := by
  induction a generalizing b with
  | nil => cases b <;> simp [commonRun]
  | cons x xs ih =>
    cases b with
    | nil => simp [commonRun]
    | cons y ys =>
      simp only [commonRun]
      split
      · have := ih ys
        simpa using Nat.succ_le_succ this
      · simp

/-- A generic preservation lemma for foldl, used to bound flm. -/
theorem foldl_preserve {α β : Type} (f : β → α → β) (P : β → Prop) :
    ∀ (l : List α) (init : β), P init → (∀ acc x, x ∈ l → P acc → P (f acc x)) →
    P (l.foldl f init)
  | [], init, h0, _ => h0
  | x :: xs, init, h0, hstep =>
    foldl_preserve f P xs (f init x) (hstep init x (List.mem_cons_self x xs) h0)
      (fun acc y hy => hstep acc y (List.mem_cons_of_mem x hy))

/-- The bound invariant satisfied by the result of flm: either no match
was found, or the block lies inside both strings and has positive size. -/
def FlmBound (a b : Str) (t : Nat × Nat × Nat) : Prop :=
  t.2.2 = 0 ∨ (t.1 + t.2.2 ≤ a.length ∧ t.2.1 + t.2.2 ≤ b.length ∧ 1 ≤ t.2.2)

theorem flm_bound (a b : Str) : FlmBound a b (flm a b) := by
  unfold flm
  apply foldl_preserve _ (FlmBound a b)
  · left; rfl
  · intro acc i hi hacc
    apply foldl_preserve _ (FlmBound a b)
    · exact hacc
    · intro acc2 j hj hacc2
      dsimp only
      split
      · rename_i hlt
        right
        have hi' : i < a.length := List.mem_range.mp hi
        have hj' : j < b.length := List.mem_range.mp hj
        have hka : commonRun (a.drop i) (b.drop j) ≤ (a.drop i).length :=
          commonRun_le_left _ _
        have hkb : commonRun (a.drop i) (b.drop j) ≤ (b.drop j).length := by
          have : ∀ (x y : Str), commonRun x y ≤ y.length := by
            intro x
            induction x with
            | nil => intro y; cases y <;> simp [commonRun]
            | cons c cs ih =>
              intro y
              cases y with
              | nil => simp [commonRun]
              | cons d ds =>
                simp only [commonRun]
                split
                · simpa using Nat.succ_le_succ (ih ds)
                · simp
          exact this _ _
        rw [List.length_drop] at hka hkb
        refine ⟨?_, ?_, ?_⟩ <;> dsimp only <;> omega
      · exact hacc2

/-- Total size of the matching blocks, computed with explicit fuel so
that the definition stays structurally recursive (and hence evaluable by
the kernel).  The fuel strictly dominates the length of the first string
at every call, so the zero-fuel branch is never taken; see
mtGo_fuel_irrel below. -/
def mtGo : Nat → Str → Str → Nat
  | 0, _, _ => 0
  | fuel + 1, a, b =>
    let t := flm a b
    if t.2.2 = 0 then 0
    else
      mtGo fuel (a.take t.1) (b.take t.2.1) + t.2.2 +
      mtGo fuel (a.drop (t.1 + t.2.2)) (b.drop (t.2.1 + t.2.2))

/-- get_matching_blocks total size: recursion on the longest match, to
its left and to its right, exactly the queue processing of difflib. -/
def matchTotal (a b : Str) : Nat := mtGo (a.length + 1) a b

/-- The fuel argument of mtGo is irrelevant as long as it strictly
dominates the length of the first string, so matchTotal is the fixpoint
of the intended recursion. -/
theorem mtGo_fuel_irrel :
    ∀ (f₁ f₂ : Nat) (a b : Str), a.length < f₁ → a.length < f₂ →
      mtGo f₁ a b = mtGo f₂ a b := by
  intro f₁
  induction f₁ with
  | zero => intro f₂ a b h1 h2; exact absurd h1 (Nat.not_lt_zero _)
  | succ n ih =>
    intro f₂ a b h1 h2
    cases f₂ with
    | zero => omega
    | succ m =>
      simp only [mtGo]
      split
      · rfl
      · rename_i hne
        have hb := flm_bound a b
        rcases hb with hb | ⟨hba, hbb, hbk⟩
        · exact absurd hb hne
        · have hta : (a.take (flm a b).1).length < n := by
            rw [List.length_take]; omega
          have htb : (a.take (flm a b).1).length < m := by
            rw [List.length_take]; omega
          have hda : (a.drop ((flm a b).1 + (flm a b).2.2)).length < n := by
            rw [List.length_drop]; omega
          have hdb : (a.drop ((flm a b).1 + (flm a b).2.2)).length < m := by
            rw [List.length_drop]; omega
          rw [ih m _ _ hta htb, ih m _ _ hda hdb]

/-- SequenceMatcher ratio: twice the matched total over the combined
length, and 1.0 when both strings are empty. -/
def simScore (a b : Str) : ℚ :=
  let t := a.length + b.length
  if t = 0 then 1 else (2 * matchTotal a b : ℚ) / (t : ℚ)

/-- The cutoff 0.83 used by the resolver, as an exact rational. -/
def fuzzyCutoff : ℚ := 83 / 100

/-- difflib get_close_matches with n = 1, as called by the resolver:
keep the candidates whose ratio reaches the cutoff and return the best
one, ties broken the way heapq nlargest breaks them on (score, string)
pairs, that is by the larger string on equal scores, keeping the earlier
entry on full ties.  The quick-ratio prefilters of difflib are upper
bounds of ratio, so they do not change which candidates survive. -/
def tupleLt (p q : ℚ × Str) : Bool := p.1 < q.1 || (p.1 = q.1 && lexLt p.2 q.2)

/-- Best scored candidate (first among maximal ones). -/
def pickBest : List (ℚ × Str) → Option (ℚ × Str)
  | [] => none
  | p :: rest => some (rest.foldl (fun best q => if tupleLt best q then q else best) p)

/-- get_close_matches word possibilities with n = 1 and cutoff 0.83;
note that difflib scores ratio with the candidate as first sequence. -/
def get_close_matches (word : Str) (poss : List Str) : List Str :=
  let scored := poss.filterMap
    (fun x => let r := simScore x word; if fuzzyCutoff ≤ r then some (r, x) else none)
  match pickBest scored with
  | some p => [p.2]
  | none => []

/-! ## The name resolver (normalize_canton_names and its inner norm)

The resolver is parametrised by the canonical join-key set: the list cs
below holds the NAME_JOIN values (uppercased shapefile names) in the
order in which the canonical accent-stripped map is built.  Python sets
and dicts are modelled by lists and association lists; the set iteration
order only matters under accent-folding collisions, which the theorems
below exclude explicitly where it could matter. -/

/-- The curated alias table extra_aliases of normalize_canton_names, in
source order (note the key GENEVE with a trailing space, present in the
source). -/
def extra_aliases : List (Str × Str) :=
  [ (lit "GENF", lit "GENÈVE"), (lit "GENEVE", lit "GENÈVE"),
    (lit "GENEVA", lit "GENÈVE"), (lit "GENEVE ", lit "GENÈVE"),
    (lit "WALLIS", lit "VALAIS"),
    (lit "GRAUBUNDEN", lit "GRAUBÜNDEN"), (lit "GRISONS", lit "GRAUBÜNDEN"),
    (lit "GRIGIONI", lit "GRAUBÜNDEN"), (lit "GRAUBUENDEN", lit "GRAUBÜNDEN"),
    (lit "FREIBURG", lit "FRIBOURG"), (lit "FRIBURG", lit "FRIBOURG") ]

/-- The accent-stripped canonical map: for each canonical join key c the
pair (strip_accents (c.upper()), c), with dict semantics (last binding of
a key wins). -/
def canonicalMap (cs : List Str) : List (Str × Str) :=
  cs.map (fun c => (strip_accents (pyUpper c), c))

/-- The keys of the canonical map in dict order (first occurrence kept),
the candidate list handed to get_close_matches. -/
def canonicalKeys (cs : List Str) : List Str :=
  dedupKeepFirst ((canonicalMap cs).map Prod.fst)

/-- Alias lookup guarded by membership of the target in the canonical
set, the test part in extra_aliases and extra_aliases[part] in
canton_set of the source. -/
def aliasInSet (cs : List Str) (q : Str) : Option Str :=
  match dgetLast extra_aliases q with
  | some t => if t ∈ cs then some t else none
  | none => none

/-- Resolution of one slash part: the four checks of the part loop, in
source order (canonical set, alias table, accent-stripped canonical map,
alias table on the accent-stripped part). -/
def partResolve (cs : List Str) (part : Str) : Option Str :=
  let pk := strip_accents part
  if part ∈ cs then some part
  else match aliasInSet cs part with
  | some t => some t
  | none =>
    match dgetLast (canonicalMap cs) pk with
    | some c => some c
    | none => aliasInSet cs pk

/-- Python whitespace characters relevant here, for str.strip on the
slash parts. -/
def isPySpace (c : Char) : Bool :=
  c.toNat = 32 || c.toNat = 9 || c.toNat = 10 || c.toNat = 13 ||
  c.toNat = 0xA0 || c.toNat = 0x202F

/-- str.strip: drop whitespace on both ends. -/
def trimStr (s : Str) : Str :=
  ((s.dropWhile isPySpace).reverse.dropWhile isPySpace).reverse

/-- Split a string on the slash character. -/
def splitSlash : Str → List Str
  | [] => [[]]
  | '/' :: r => [] :: splitSlash r
  | c :: r =>
    match splitSlash r with
    | h :: t => (c :: h) :: t
    | [] => [[c]]

/-- The part list of the slash branch: split on slash, strip each part,
keep the nonempty ones. -/
def slashParts (su : Str) : List Str :=
  ((splitSlash su).map trimStr).filter (fun p => p ≠ [])

/-- The slash branch of norm: try each part in order, return the first
resolution; none when no part resolves (control then falls through to
the whole-label checks, as in the source). -/
def slashStage (cs : List Str) (su : Str) : Option Str :=
  if '/' ∈ su then firstSome ((slashParts su).map (partResolve cs)) else none

/-- The inner function norm of normalize_canton_names: uppercase, try the
slash branch, then the accent-stripped canonical map, then the canonical
set, then the alias table on the label and on its accent-stripped form,
and finally difflib get_close_matches with cutoff 0.83; if nothing
matches, the uppercased label itself is returned. -/
def norm (cs : List Str) (s : Str) : Str :=
  let su := pyUpper s
  let key := strip_accents su
  match slashStage cs su with
  | some r => r
  | none =>
    match dgetLast (canonicalMap cs) key with
    | some c => c
    | none =>
      if su ∈ cs then su
      else match aliasInSet cs su with
      | some t => t
      | none =>
        match aliasInSet cs key with
        | some t => t
        | none =>
          match get_close_matches key (canonicalKeys cs) with
          | c :: _ => (dgetLast (canonicalMap cs) c).getD su
          | [] => su

/-! ## The duplicate collapser (collapse_duplicates)

The source groups the selected rows by (AREA_JOIN_NORM, CATEGORY) and
aggregates the parsed VALUE_NUM column with the inner function collapse.
collapse reads series.name.upper() expecting the category name; however
the aggregation runs through the pandas code path for a grouping with
more than one key (SeriesGroupBy.aggregate, then _python_agg_general),
which passes each group to the callable as a slice of the VALUE_NUM
column with the column name as its name attribute - pandas pins the
group key as the name only in apply and in the single-key _aggregate_named
fallback.  The embedding therefore makes the name an explicit parameter
of collapse and instantiates it with the string VALUE_NUM, which is what
the program actually computes with. -/

/-- The fixed count-category vocabulary COUNT_CATEGORIES of src/main.py. -/
def COUNT_CATEGORIES : List Str :=
  [ lit "STIMMBERECHTIGTE", lit "ABGEGEBENE STIMMEN",
    lit "GÜLTIGE STIMMZETTEL", lit "JA", lit "NEIN" ]

/-- The name attribute that pandas gives each group series in this
aggregation: the name of the aggregated column. -/
def seriesName : Str := lit "VALUE_NUM"

/-- The inner collapse function: drop absent values; absent when nothing
remains; the single value when only one distinct value remains (the
source compares the float values as text, which on parsed values agrees
with value equality); the maximum when the upper-cased name is a count
category; otherwise the first value.  The values arrive already parsed,
so the to_numeric call inside the max branch is the identity. -/
def collapse (name : Str) (vals : List (Option ℚ)) : Option ℚ :=
  let nameU := pyUpper name
  let cleaned := vals.filterMap id
  match cleaned with
  | [] => none
  | v :: rest =>
    if (dedupKeepFirst (v :: rest)).length = 1 then some v
    else if nameU ∈ COUNT_CATEGORIES then some (rest.foldl max v)
    else some v

/-- collapse_duplicates: parse the VALUE column, group by the pair of
region key and category (within-group order preserved, as pandas does),
and aggregate each group with collapse, whose series name is VALUE_NUM
as explained above.  Group keys are listed in first-appearance order;
pandas sorts them, but no claim observes the row order of the result. -/
def collapse_duplicates (rows : List (Str × Str × Str)) :
    List (Str × Str × Option ℚ) :=
  let rowsNum := rows.map (fun r => (r.1, r.2.1, cleanNumber r.2.2))
  let keys := dedupKeepFirst (rowsNum.map (fun r => (r.1, r.2.1)))
  keys.map (fun k =>
    (k.1, k.2,
      collapse seriesName
        ((rowsNum.filter (fun r => r.1 = k.1 ∧ r.2.1 = k.2)).map (fun r => r.2.2))))

/-! ## The aggregation entry point (build_canton_votes)

A raw observation row after load_base_data: the referendum title (absent
entries are dropped by the title scan), the cleaned uppercased area
label AREA_JOIN, the category and the raw value text.  The geometry
merge at the end of build_canton_votes is a left join onto the boundary
polygons and is outside the scope of the claims; the pivot table that
the function returns is modelled in full. -/

structure RawRow where
  TITLE : Option Str
  AREA_JOIN : Str
  CATEGORY : Str
  VALUE : Str
deriving DecidableEq

/-- The abort conditions of build_canton_votes.  The first three are the
ValueError cases raised explicitly by the source; the last one models
the IndexError that Python list indexing raises when title_index is out
of range. -/
inductive BuildError where
  | noTitles
  | noTitleMatch (filterText : Str)
  | emptyAfterReconciliation
  | indexOutOfRange
deriving DecidableEq

/-- One row of the pivot table produced by build_canton_votes: the region
key, the cells of the pivoted category columns, and the derived YES, NO,
TOTAL and YES_PCT columns (all absent when no yes or no column was
identified). -/
structure PRow where
  region : Str
  cells : List (Str × Option ℚ)
  yes : Option ℚ
  no : Option ℚ
  total : Option ℚ
  yes_pct : Option ℚ
deriving DecidableEq

/-- The pivot table together with the identified yes and no columns. -/
structure BuildOutput where
  rows : List PRow
  yesCol : Option Str
  noCol : Option Str
deriving DecidableEq

/-- sorted(t for t in raw[TITLE].dropna().unique()): the distinct
non-absent titles in sorted order. -/
def titlesOf (rows : List RawRow) : List Str :=
  sortStrings (dedupKeepFirst (rows.filterMap (fun r => r.TITLE)))

/-- Title selection: a truthy filter picks the first title containing it
case-insensitively (ValueError with the filter text when none does); an
absent or empty filter selects all_titles[title_index] by Python list
indexing (IndexError when out of range). -/
def selectTitle (titles : List Str) (tf : Option Str) (ti : Int) :
    Except BuildError Str :=
  match tf with
  | some f =>
    if f = [] then
      match pyIndex titles ti with
      | some t => .ok t
      | none => .error .indexOutOfRange
    else
      match titles.filter (fun t => hasSub (pyLower t) (pyLower f)) with
      | [] => .error (.noTitleMatch f)
      | t :: _ => .ok t
  | none =>
    match pyIndex titles ti with
    | some t => .ok t
    | none => .error .indexOutOfRange

/-- The rows of the selected title. -/
def selOf (rows : List RawRow) (t : Str) : List RawRow :=
  rows.filter (fun r => r.TITLE = some t)

/-- The canton-level rows: those whose resolved region key lies in the
canonical set. -/
def selCantonOf (cs : List Str) (rows : List RawRow) (t : Str) : List RawRow :=
  (selOf rows t).filter (fun r => norm cs r.AREA_JOIN ∈ cs)

/-- The per-category recovery sum for the rows matching one missing
region: group the matching rows by category and sum their parsed values
(pandas sum skips absent values, so they contribute zero); absent when
the category does not occur, as agg.get returns None then. -/
def aggCat (sub : List RawRow) (cat : Str) : Option ℚ :=
  match sub.filter (fun r => r.CATEGORY = cat) with
  | [] => none
  | g => some (g.foldl (fun acc r => acc + (cleanNumber r.VALUE).getD 0) 0)

/-- The matching key of the recovery loop: the first four accent-stripped
characters of the canonical region name. -/
def recKey (miss : Str) : Str := (strip_accents miss).take 4

/-- The rows scanned by the recovery loop for one missing region: rows of
the selected title whose category is Ja or Nein and whose accent-stripped
label contains the key.  All rows of the selected title are scanned,
resolved or not, since the source filters sel rather than its unresolved
part. -/
def recSub (sel : List RawRow) (miss : Str) : List RawRow :=
  sel.filter (fun r =>
    (r.CATEGORY = lit "Ja" ∨ r.CATEGORY = lit "Nein") ∧
    hasSub (strip_accents r.AREA_JOIN) (recKey miss))

/-- Recovery for one missing region: when any row matches the key,
append one row per category with the summed value. -/
def recoverOne (sel : List RawRow) (miss : Str) : List (Str × Str × Option ℚ) :=
  if recSub sel miss = [] then []
  else [(miss, lit "Ja", aggCat (recSub sel miss) (lit "Ja")),
        (miss, lit "Nein", aggCat (recSub sel miss) (lit "Nein"))]

/-- The recovery loop over all missing regions, appending to the
collapsed rows.  The source iterates a Python set of missing regions,
whose order is unspecified; the embedding iterates them in canonical
list order, which no claim observes since each appended row is keyed by
its own region. -/
def recoverAll (sel : List RawRow) (missing : List Str)
    (collapsed : List (Str × Str × Option ℚ)) : List (Str × Str × Option ℚ) :=
  collapsed ++ missing.flatMap (recoverOne sel)

/-- One cell of the pivot table: pivot_table with aggfunc first takes
the first non-absent value of the group (absent when none exists). -/
def pivotCell (cp : List (Str × Str × Option ℚ)) (r c : Str) : Option ℚ :=
  firstSome ((cp.filter (fun x => x.1 = r ∧ x.2.1 = c)).map (fun x => x.2.2))

/-- The derived TOTAL and YES_PCT of one pivot row, from the YES and NO
cells: TOTAL treats absent as zero and is always assigned; YES_PCT
divides by TOTAL where TOTAL is nonzero and is absent when TOTAL is zero
or YES is absent (absent values propagate through the arithmetic). -/
def rowMetrics (y n : Option ℚ) : ℚ × Option ℚ :=
  let t : ℚ := y.getD 0 + n.getD 0
  (t, match y with
      | none => none
      | some yv => if t = 0 then none else some (yv / t * 100))

/-- Build the pivot table from the collapsed (and recovered) rows:
one row per region in order of appearance, one column per category that
pivot_table keeps (all-absent columns are dropped); the yes and no
columns are the first columns fully matching ja and nein
case-insensitively; when both exist the derived columns are added.
pandas sorts the pivot index and columns, which no claim observes.
pivotRowOf builds the row of one region given the kept columns and the
identified yes and no columns. -/
def pivotRowOf (cp : List (Str × Str × Option ℚ)) (cols : List Str)
    (yesCol noCol : Option Str) (r : Str) : PRow :=
  let cells := cols.map (fun c => (c, pivotCell cp r c))
  match yesCol, noCol with
  | some yc, some nc =>
    let y := pivotCell cp r yc
    let n := pivotCell cp r nc
    let m := rowMetrics y n
    ⟨r, cells, y, n, some m.1, m.2⟩
  | _, _ => ⟨r, cells, none, none, none, none⟩

def pivotBuild (cp : List (Str × Str × Option ℚ)) : BuildOutput :=
  let regions := dedupKeepFirst (cp.map (fun x => x.1))
  let catsAll := dedupKeepFirst (cp.map (fun x => x.2.1))
  let cols := catsAll.filter (fun c => regions.any (fun r => (pivotCell cp r c).isSome))
  let yesCol := cols.find? (fun c => pyLower c = lit "ja")
  let noCol := cols.find? (fun c => pyLower c = lit "nein")
  ⟨regions.map (pivotRowOf cp cols yesCol noCol), yesCol, noCol⟩

/-- The successful tail of build_canton_votes for an already selected
title: collapse the canton-level rows, recover the missing regions when
requested, and pivot. -/
def pipelineOk (cs : List Str) (rows : List RawRow) (selected : Str)
    (recover : Bool) : BuildOutput :=
  let sel := selOf rows selected
  let selCanton := selCantonOf cs rows selected
  let collapsed := collapse_duplicates
    (selCanton.map (fun r => (norm cs r.AREA_JOIN, r.CATEGORY, r.VALUE)))
  let missing := cs.filter (fun c => ¬ collapsed.any (fun x => x.1 = c))
  let collapsedPlus := if recover then recoverAll sel missing collapsed else collapsed
  pivotBuild collapsedPlus

/-- build_canton_votes: fail when there are no titles; select the title
by filter or index; fail when no canton-level rows remain after name
reconciliation; otherwise collapse, recover and pivot.  Errors abort the
run with no partial result, as Except has no partial success. -/
def build (cs : List Str) (rows : List RawRow) (tf : Option Str) (ti : Int)
    (recover : Bool) : Except BuildError BuildOutput :=
  if titlesOf rows = [] then .error .noTitles
  else
    match selectTitle (titlesOf rows) tf ti with
    | .error e => .error e
    | .ok selected =>
      if selCantonOf cs rows selected = [] then .error .emptyAfterReconciliation
      else .ok (pipelineOk cs rows selected recover)

/-! ## Helper lemmas about the embedded operations -/

theorem dkfGo_subset {α} [DecidableEq α] {x : α} :
    ∀ {seen l : List α}, x ∈ dkfGo seen l → x ∈ l := by
  intro seen l
  induction l generalizing seen with
  | nil => intro h; simp [dkfGo] at h
  | cons y ys ih =>
    intro h
    simp only [dkfGo] at h
    split at h
    · exact List.mem_cons_of_mem _ (ih h)
    · rcases List.mem_cons.mp h with h | h
      · exact h ▸ List.mem_cons_self _ _
      · exact List.mem_cons_of_mem _ (ih h)

theorem mem_dedupKeepFirst_subset {α} [DecidableEq α] {x : α} {l : List α}
    (h : x ∈ dedupKeepFirst l) : x ∈ l := dkfGo_subset h

theorem filterMap_id_nil {α} : ∀ {l : List (Option α)},
    (∀ v ∈ l, v = none) → l.filterMap id = [] := by
  intro l
  induction l with
  | nil => intro _; rfl
  | cons v vs ih =>
    intro h
    have hv : v = none := h v (List.mem_cons_self _ _)
    subst hv
    simpa using ih (fun w hw => h w (List.mem_cons_of_mem _ hw))

theorem dgetLast_canonicalMap_mem {cs : List Str} {q v : Str}
    (h : dgetLast (canonicalMap cs) q = some v) :
    v ∈ cs ∧ strip_accents (pyUpper v) = q := by
  induction cs with
  | nil => simp [canonicalMap, dgetLast] at h
  | cons a rest ih =>
    simp only [canonicalMap, List.map_cons, dgetLast] at h
    cases hrest : dgetLast (List.map (fun c => (strip_accents (pyUpper c), c)) rest) q with
    | some r =>
      rw [hrest] at h
      have hrv : r = v := Option.some.inj h
      subst hrv
      have h2 := ih (show dgetLast (canonicalMap rest) q = some r by
        simpa only [canonicalMap] using hrest)
      exact ⟨List.mem_cons_of_mem _ h2.1, h2.2⟩
    | none =>
      rw [hrest] at h
      by_cases heq : strip_accents (pyUpper a) = q
      · rw [if_pos heq] at h
        have hav : a = v := Option.some.inj h
        subst hav
        exact ⟨List.mem_cons_self _ _, heq⟩
      · rw [if_neg heq] at h
        exact absurd h (by simp)

theorem dgetLast_canonicalMap_inj {cs : List Str} {c : Str}
    (hinj : ∀ c₁ ∈ cs, ∀ c₂ ∈ cs,
      strip_accents (pyUpper c₁) = strip_accents (pyUpper c₂) → c₁ = c₂)
    (hc : c ∈ cs) :
    dgetLast (canonicalMap cs) (strip_accents (pyUpper c)) = some c := by
  induction cs with
  | nil => simp at hc
  | cons a rest ih =>
    simp only [canonicalMap, List.map_cons, dgetLast]
    rcases List.mem_cons.mp hc with rfl | hmem
    · cases hrest : dgetLast (canonicalMap rest) (strip_accents (pyUpper c)) with
      | some r =>
        have hr := dgetLast_canonicalMap_mem hrest
        have hrc : r = c :=
          hinj r (List.mem_cons_of_mem _ hr.1) c (List.mem_cons_self _ _) hr.2
        simp only [canonicalMap] at hrest
        rw [hrest, hrc]
      | none =>
        simp only [canonicalMap] at hrest
        rw [hrest]
        simp
    · have ih' := ih
        (fun c₁ h₁ c₂ h₂ => hinj c₁ (List.mem_cons_of_mem _ h₁) c₂ (List.mem_cons_of_mem _ h₂))
        hmem
      simp only [canonicalMap] at ih'
      rw [ih']

theorem dgetLast_canonicalMap_isSome {cs : List Str} {c : Str}
    (hc : c ∈ cs) :
    ∃ v, dgetLast (canonicalMap cs) (strip_accents (pyUpper c)) = some v := by
  induction cs with
  | nil => simp at hc
  | cons a rest ih =>
    simp only [canonicalMap, List.map_cons, dgetLast]
    rcases List.mem_cons.mp hc with rfl | hmem
    · cases hrest : dgetLast (canonicalMap rest) (strip_accents (pyUpper c)) with
      | some r =>
        refine ⟨r, ?_⟩
        simp only [canonicalMap] at hrest
        rw [hrest]
      | none =>
        refine ⟨c, ?_⟩
        simp only [canonicalMap] at hrest
        rw [hrest]
        simp
    · rcases ih hmem with ⟨v, hv⟩
      refine ⟨v, ?_⟩
      simp only [canonicalMap] at hv
      rw [hv]

theorem aliasInSet_mem {cs : List Str} {q t : Str}
    (h : aliasInSet cs q = some t) : t ∈ cs := by
  unfold aliasInSet at h
  split at h
  · split at h
    · rename_i hmem
      rcases Option.some.inj h with rfl
      exact hmem
    · exact absurd h (by simp)
  · exact absurd h (by simp)

theorem partResolve_mem {cs : List Str} {p r : Str}
    (h : partResolve cs p = some r) : r ∈ cs := by
  simp only [partResolve] at h
  split at h
  · rename_i hmem
    rcases Option.some.inj h with rfl
    exact hmem
  · split at h
    · rename_i t ht
      rcases Option.some.inj h with rfl
      exact aliasInSet_mem ht
    · split at h
      · rename_i c hc
        rcases Option.some.inj h with rfl
        exact (dgetLast_canonicalMap_mem hc).1
      · exact aliasInSet_mem h

theorem firstSome_partResolve_mem {cs : List Str} {r : Str} :
    ∀ {parts : List Str}, firstSome (parts.map (partResolve cs)) = some r → r ∈ cs := by
  intro parts
  induction parts with
  | nil => intro h; simp [firstSome] at h
  | cons p ps ih =>
    intro h
    simp only [List.map_cons] at h
    cases hp : partResolve cs p with
    | some x =>
      rw [hp] at h
      simp only [firstSome] at h
      rcases Option.some.inj h with rfl
      exact partResolve_mem hp
    | none =>
      rw [hp] at h
      simp only [firstSome] at h
      exact ih h

theorem slashStage_mem {cs : List Str} {su r : Str}
    (h : slashStage cs su = some r) : r ∈ cs := by
  unfold slashStage at h
  split at h
  · exact firstSome_partResolve_mem h
  · exact absurd h (by simp)

theorem pickBest_mem {l : List (ℚ × Str)} {p : ℚ × Str}
    (h : pickBest l = some p) : p ∈ l := by
  cases l with
  | nil => simp [pickBest] at h
  | cons q rest =>
    simp only [pickBest] at h
    rcases Option.some.inj h with rfl
    have : ∀ (xs : List (ℚ × Str)) (acc : ℚ × Str), acc ∈ q :: rest → (∀ x ∈ xs, x ∈ q :: rest) →
        xs.foldl (fun best y => if tupleLt best y then y else best) acc ∈ q :: rest := by
      intro xs
      induction xs with
      | nil => intro acc hacc _; exact hacc
      | cons z zs ih =>
        intro acc hacc hxs
        simp only [List.foldl_cons]
        apply ih
        · split
          · exact hxs z (List.mem_cons_self _ _)
          · exact hacc
        · exact fun x hx => hxs x (List.mem_cons_of_mem _ hx)
    exact this rest q (List.mem_cons_self _ _) (fun x hx => List.mem_cons_of_mem _ hx)

theorem get_close_matches_sound {word : Str} {poss : List Str} {c : Str} {rest : List Str}
    (h : get_close_matches word poss = c :: rest) :
    c ∈ poss ∧ fuzzyCutoff ≤ simScore c word := by
  simp only [get_close_matches] at h
  split at h
  · rename_i p hp
    rcases List.cons.inj h with ⟨rfl, _⟩
    have hmem := pickBest_mem hp
    rcases List.mem_filterMap.mp hmem with ⟨x, hx, hcond⟩
    by_cases hge : fuzzyCutoff ≤ simScore x word
    · rw [if_pos hge] at hcond
      rcases Option.some.inj hcond with rfl
      exact ⟨hx, hge⟩
    · rw [if_neg hge] at hcond
      exact absurd hcond (by simp)
  · exact absurd h (by simp)

theorem get_close_matches_empty {word : Str} {poss : List Str}
    (h : ∀ x ∈ poss, simScore x word < fuzzyCutoff) :
    get_close_matches word poss = [] := by
  unfold get_close_matches
  have hsc : poss.filterMap
      (fun x => let r := simScore x word; if fuzzyCutoff ≤ r then some (r, x) else none) = [] := by
    apply List.filterMap_eq_nil_iff.mpr
    intro x hx
    dsimp only
    rw [if_neg (not_le.mpr (h x hx))]
  rw [hsc]
  rfl

theorem canonicalKeys_mem {cs : List Str} {k : Str}
    (h : k ∈ canonicalKeys cs) : ∃ c ∈ cs, k = strip_accents (pyUpper c) := by
  have h1 := mem_dedupKeepFirst_subset h
  rcases List.mem_map.mp h1 with ⟨pair, hpair, rfl⟩
  rcases List.mem_map.mp hpair with ⟨c, hc, rfl⟩
  exact ⟨c, hc, rfl⟩

/-! ## Claim C1: the duplicate collapser -/

/-- C1 (code evidence): on the failing input of two observations for the
same (region, category) group with category Ja - a count category, as
the third conjunct shows - and the distinct values 50 and 100, the
program collapses to 50, the first value, not to the maximum 100.  The
group series that pandas hands to the inner collapse carries the column
name VALUE_NUM, not the category, so the count branch never fires; had
the name been the category (the reading of the docstring, of the spec
and of the claim), the result would be the maximum, as the second
conjunct shows. -/
theorem C1_collapse_first_not_max :
    collapse_duplicates
        [(lit "ZÜRICH", lit "Ja", lit "50"), (lit "ZÜRICH", lit "Ja", lit "100")]
      = [(lit "ZÜRICH", lit "Ja", some 50)]
  ∧ collapse (lit "Ja") [some 50, some 100] = some 100
  ∧ pyUpper (lit "Ja") ∈ COUNT_CATEGORIES
  ∧ collapse seriesName [some 50, some 100] = some 50 := by
  refine ⟨by decide, by decide, by decide, by decide⟩

/-! ## Claim C7: number parsing -/

/-- C7: the three locale spellings with apostrophe, space and no-break
space as thousand separators all parse to 1234.5; an unparsable string
parses to absent (the conversion is a total function, so it never
raises); and a group holding only unparsable values collapses to
absent. -/
theorem C7_number_parsing :
    cleanNumber (lit "1'234,5") = some (2469 / 2)
  ∧ cleanNumber (lit "1 234,5") = some (2469 / 2)
  ∧ cleanNumber (lit "1\u00A0234,5") = some (2469 / 2)
  ∧ cleanNumber (lit "n/a") = none
  ∧ ∀ vs : List Str, (∀ v ∈ vs, cleanNumber v = none) →
      collapse seriesName (clean_number_series vs) = none := by
  refine ⟨by decide, by decide, by decide, by decide, ?_⟩
  intro vs h
  have hnil : (clean_number_series vs).filterMap id = [] := by
    apply filterMap_id_nil
    intro v hv
    rcases List.mem_map.mp hv with ⟨w, hw, rfl⟩
    exact h w hw
  simp only [collapse, hnil]

/-- Witness for C7 at a concrete group of two unparsable values. -/
theorem C7_number_parsing_witness :
    collapse seriesName (clean_number_series [lit "n/a", lit "x"]) = none :=
  C7_number_parsing.2.2.2.2 [lit "n/a", lit "x"] (by decide)

/-! ## Claim C8: the resolver invariant -/

/-- C8: for every input label and canonical set, the region key produced
by the resolver is either a member of the canonical join-key set or the
uppercased label itself; no other string can be produced. -/
theorem C8_region_key_invariant (cs : List Str) (s : Str) :
    norm cs s ∈ cs ∨ norm cs s = pyUpper s := by
  simp only [norm]
  split
  · rename_i r hr
    exact Or.inl (slashStage_mem hr)
  · split
    · rename_i c hc
      exact Or.inl (dgetLast_canonicalMap_mem hc).1
    · split
      · rename_i h
        exact Or.inl h
      · split
        · rename_i t ht
          exact Or.inl (aliasInSet_mem ht)
        · split
          · rename_i t ht
            exact Or.inl (aliasInSet_mem ht)
          · split
            · rename_i c rest hgc
              cases hd : dgetLast (canonicalMap cs) c with
              | some v => exact Or.inl (dgetLast_canonicalMap_mem hd).1
              | none => exact Or.inr rfl
            · exact Or.inr rfl

/-! ## Claim C5: exact accent-insensitive resolution -/

/-- C5: a raw label equal, ignoring letter case and diacritical marks, to
a canonical region name resolves to exactly the join key of that region.  The
hypotheses delimit the domain of the claim: the canonical name is in the set,
accent folding separates the canonical names (true of the Swiss canton
names), and the label contains no slash (canonical canton names contain
none, and a slash would divert resolution into the bilingual branch). -/
theorem C5_exact_accent_fold (cs : List Str) (s c : Str)
    (hc : c ∈ cs)
    (heq : strip_accents (pyUpper s) = strip_accents (pyUpper c))
    (hinj : ∀ c₁ ∈ cs, ∀ c₂ ∈ cs,
      strip_accents (pyUpper c₁) = strip_accents (pyUpper c₂) → c₁ = c₂)
    (hslash : '/' ∉ pyUpper s) :
    norm cs s = c := by
  have hstage : slashStage cs (pyUpper s) = none := by
    unfold slashStage
    rw [if_neg hslash]
  have hmap : dgetLast (canonicalMap cs) (strip_accents (pyUpper s)) = some c := by
    rw [heq]
    exact dgetLast_canonicalMap_inj hinj hc
  simp only [norm, hstage, hmap]

/-- Witness for C5: the lowercased accented label zürich resolves to the
canonical join key ZÜRICH. -/
theorem C5_exact_accent_fold_witness :
    norm [lit "ZÜRICH", lit "BERN"] (lit "zürich") = lit "ZÜRICH" :=
  C5_exact_accent_fold [lit "ZÜRICH", lit "BERN"] (lit "zürich") (lit "ZÜRICH")
    (by decide) (by decide) (by decide) (by decide)

/-! ## Claim C6: bilingual slash labels -/

/-- C6 counterexample: with both BERN and ZUG canonical, the labels
BERN/ZUG and ZUG/BERN each have both sides resolving, yet resolution
returns different keys depending on which side comes first - so the
result is not independent of the side order as soon as more than one
side resolves. -/
theorem C6_slash_order_dependence :
    norm [lit "BERN", lit "ZUG"] (lit "BERN/ZUG") = lit "BERN"
  ∧ norm [lit "BERN", lit "ZUG"] (lit "ZUG/BERN") = lit "ZUG"
  ∧ partResolve [lit "BERN", lit "ZUG"] (lit "BERN") = some (lit "BERN")
  ∧ partResolve [lit "BERN", lit "ZUG"] (lit "ZUG") = some (lit "ZUG")
  ∧ (lit "BERN" : Str) ≠ lit "ZUG" := by
  refine ⟨by decide, by decide, by decide, by decide, by decide⟩

/-- C6 (amended): for a two-part slash label, resolution returns the
key of the first resolving side; in particular, when exactly one side
resolves, the result is the key of that side regardless of whether the
resolving side appears before or after the slash. -/
theorem C6_slash_resolution (cs : List Str) (s₁ s₂ a b r : Str)
    (h1 : '/' ∈ pyUpper s₁) (hp1 : slashParts (pyUpper s₁) = [a, b])
    (h2 : '/' ∈ pyUpper s₂) (hp2 : slashParts (pyUpper s₂) = [b, a])
    (hr : partResolve cs a = some r) :
    norm cs s₁ = r ∧ (partResolve cs b = none → norm cs s₂ = r) := by
  have hs1 : slashStage cs (pyUpper s₁) = some r := by
    unfold slashStage
    rw [if_pos h1, hp1]
    simp [firstSome, hr]
  refine ⟨by simp only [norm, hs1], ?_⟩
  intro hb
  have hs2 : slashStage cs (pyUpper s₂) = some r := by
    unfold slashStage
    rw [if_pos h2, hp2]
    simp [firstSome, hb, hr]
  simp only [norm, hs2]

/-- Witness for C6 at a concrete label pair whose resolving side is BERN
and whose other side resolves to nothing. -/
theorem C6_slash_resolution_witness :
    norm [lit "BERN"] (lit "BERN/XYZQW") = lit "BERN"
  ∧ norm [lit "BERN"] (lit "XYZQW/BERN") = lit "BERN" := by
  have h := C6_slash_resolution [lit "BERN"] (lit "BERN/XYZQW") (lit "XYZQW/BERN")
    (lit "BERN") (lit "XYZQW") (lit "BERN")
    (by decide) (by decide) (by decide) (by decide) (by decide)
  exact ⟨h.1, h.2 (by decide)⟩

/-! ## Claim C2: the fuzzy-matching threshold -/

/-- C2: when a label reaches the approximate-matching stage (all earlier
stages failed, as the hypotheses state), the resolver either returns the
uppercased label unchanged or returns a canonical key whose
accent-stripped form scores at least 0.83 against the accent-stripped
uppercased label; and when every canonical key scores below the cutoff,
the resolver returns the uppercased label, which by hypothesis is not a
canonical key. -/
theorem C2_fuzzy_threshold (cs : List Str) (s : Str)
    (hstage : slashStage cs (pyUpper s) = none)
    (hmap : dgetLast (canonicalMap cs) (strip_accents (pyUpper s)) = none)
    (hset : pyUpper s ∉ cs)
    (ha1 : aliasInSet cs (pyUpper s) = none)
    (ha2 : aliasInSet cs (strip_accents (pyUpper s)) = none) :
    (norm cs s = pyUpper s ∨
      ∃ c, c ∈ cs ∧ norm cs s = c ∧
        fuzzyCutoff ≤ simScore (strip_accents (pyUpper c)) (strip_accents (pyUpper s)))
    ∧ ((∀ c ∈ cs,
          simScore (strip_accents (pyUpper c)) (strip_accents (pyUpper s)) < fuzzyCutoff) →
        norm cs s = pyUpper s) := by
  simp only [norm, hstage, hmap, if_neg hset, ha1, ha2]
  constructor
  · cases hgc : get_close_matches (strip_accents (pyUpper s)) (canonicalKeys cs) with
    | nil => exact Or.inl rfl
    | cons k rest =>
      have hsound := get_close_matches_sound hgc
      rcases canonicalKeys_mem hsound.1 with ⟨c0, hc0, hkey⟩
      rcases dgetLast_canonicalMap_isSome hc0 with ⟨v, hv⟩
      rw [← hkey] at hv
      right
      refine ⟨v, (dgetLast_canonicalMap_mem hv).1, ?_, ?_⟩
      · show (dgetLast (canonicalMap cs) k).getD (pyUpper s) = v
        rw [hv, Option.getD_some]
      · rw [(dgetLast_canonicalMap_mem hv).2]
        exact hsound.2
  · intro hall
    have hempty : get_close_matches (strip_accents (pyUpper s)) (canonicalKeys cs) = [] := by
      apply get_close_matches_empty
      intro x hx
      rcases canonicalKeys_mem hx with ⟨c0, hc0, rfl⟩
      exact hall c0 hc0
    rw [hempty]

set_option maxRecDepth 8000 in
/-- Witness for C2: a clearly unrelated ten-character label, with two
canonical cantons, passes every earlier stage untouched and comes back
unchanged from fuzzy matching. -/
theorem C2_fuzzy_threshold_witness :
    norm [lit "BERN", lit "ZÜRICH"] (lit "QWXGJPKVYD") = pyUpper (lit "QWXGJPKVYD") := by
  have h := C2_fuzzy_threshold [lit "BERN", lit "ZÜRICH"] (lit "QWXGJPKVYD")
    (by decide) (by decide) (by decide) (by decide) (by decide)
  exact h.2 (by decide)

/-! ## Claim C3: the derived pivot metrics -/

/-- Canonical set used by the concrete metric and recovery runs. -/
def csBernZug : List Str := [lit "BERN", lit "ZUG"]

/-- Rows of one title: BERN carries a negative yes count and a no count,
ZUG carries only a participation percentage and so has absent yes and no
cells in the pivot. -/
def rowsMetricsDemo : List RawRow :=
  [ ⟨some (lit "T"), lit "BERN", lit "Ja", lit "-1"⟩,
    ⟨some (lit "T"), lit "BERN", lit "Nein", lit "2"⟩,
    ⟨some (lit "T"), lit "ZUG", lit "Stimmbeteiligung in %", lit "55,0"⟩ ]

set_option maxRecDepth 8000 in
/-- C3 counterexample: running the pipeline on rowsMetricsDemo (with both
yes and no columns identified), the ZUG row has absent yes and no yet is
assigned total 0 (the claim says such a row is not assigned a total),
and the BERN row has total 1 > 0 with yes_pct equal to -100, outside
[0, 100] (the claim says yes_pct lies in [0, 100] whenever
total > 0). -/
theorem C3_counterexample :
    (build csBernZug rowsMetricsDemo none 0 true).toOption
      = some
        ⟨[ ⟨lit "BERN",
            [(lit "Ja", some (-1)), (lit "Nein", some 2),
             (lit "Stimmbeteiligung in %", none)],
            some (-1), some 2, some 1, some (-100)⟩,
           ⟨lit "ZUG",
            [(lit "Ja", none), (lit "Nein", none),
             (lit "Stimmbeteiligung in %", some 55)],
            none, none, some 0, none⟩ ],
         some (lit "Ja"), some (lit "Nein")⟩ := by
  decide

/-- C3 (amended): in a pivot row where the yes and no columns were both
identified, total equals yes plus no with absent treated as zero and is
always assigned - a row with both absent gets total 0, not an absent
total; yes_pct is absent whenever total is zero or yes is absent; when
both yes and no are present, total is exactly their sum and yes_pct is
yes over total times 100, which lies in [0, 100] whenever total is
positive and both counts are nonnegative. -/
theorem C3_pivot_metrics (y n : Option ℚ) :
    (rowMetrics y n).1 = y.getD 0 + n.getD 0
  ∧ (y = none → n = none → rowMetrics y n = (0, none))
  ∧ ((rowMetrics y n).1 = 0 → (rowMetrics y n).2 = none)
  ∧ (y = none → (rowMetrics y n).2 = none)
  ∧ (∀ yv nv, y = some yv → n = some nv →
      (rowMetrics y n).1 = yv + nv ∧
      (0 ≤ yv → 0 ≤ nv → 0 < yv + nv →
        (rowMetrics y n).2 = some (yv / (yv + nv) * 100) ∧
        ∀ p, (rowMetrics y n).2 = some p → 0 ≤ p ∧ p ≤ 100)) := by
  refine ⟨rfl, ?_, ?_, ?_, ?_⟩
  · rintro rfl rfl
    simp [rowMetrics]
  · intro h
    cases y with
    | none => rfl
    | some yv =>
      have ht : (some yv : Option ℚ).getD 0 + n.getD 0 = 0 := h
      simp only [rowMetrics, ht]
      simp
  · rintro rfl
    rfl
  · rintro yv nv rfl rfl
    have ht : (rowMetrics (some yv) (some nv)).1 = yv + nv := by
      simp [rowMetrics]
    refine ⟨ht, ?_⟩
    intro hy hn hpos
    have hne : yv + nv ≠ 0 := ne_of_gt hpos
    have hpct : (rowMetrics (some yv) (some nv)).2 = some (yv / (yv + nv) * 100) := by
      simp only [rowMetrics, Option.getD_some]
      rw [if_neg hne]
    refine ⟨hpct, ?_⟩
    intro p hp
    rw [hpct] at hp
    rcases Option.some.inj hp with rfl
    have h1 : 0 ≤ yv / (yv + nv) := div_nonneg hy (le_of_lt hpos)
    have h2 : yv / (yv + nv) ≤ 1 := (div_le_one hpos).mpr (by linarith)
    constructor
    · have := mul_nonneg h1 (by norm_num : (0:ℚ) ≤ 100)
      linarith
    · have := mul_le_mul_of_nonneg_right h2 (by norm_num : (0:ℚ) ≤ 100)
      linarith

/-- Witness for C3 at the spec example row yes 60, no 40: total 100 and
yes_pct 60. -/
theorem C3_pivot_metrics_witness :
    rowMetrics (some 60) (some 40) = (100, some 60) := by
  have h := (C3_pivot_metrics (some 60) (some 40)).2.2.2.2 60 40 rfl rfl
  have h2 := (h.2 (by norm_num) (by norm_num) (by norm_num)).1
  refine Prod.ext ?_ ?_
  · rw [h.1]
    norm_num
  · rw [h2]
    norm_num

/-! ## Claim C4: recovery of missing regions -/

/-- Canonical set for the recovery counterexample: the two Basel
cantons, whose names share their first four accent-stripped
characters. -/
def csBasel : List Str := [lit "BASEL-LANDSCHAFT", lit "BASEL-STADT"]

/-- One row of one title, labelled with the full canonical name
BASEL-LANDSCHAFT, which resolves cleanly; no unresolved row exists. -/
def rowsBasel : List RawRow :=
  [ ⟨some (lit "T"), lit "BASEL-LANDSCHAFT", lit "Ja", lit "10"⟩ ]

set_option maxRecDepth 8000 in
/-- C4 counterexample: the only row resolves to BASEL-LANDSCHAFT (first
conjunct), so no unresolved observation exists, yet recovery for the
missing BASEL-STADT still sums that resolved row - its label contains
the key BASE - and the final pivot carries BASEL-STADT with yes 10
instead of leaving it absent.  The recovery scan reads all rows of the
selected title, not only unresolved ones. -/
theorem C4_counterexample :
    norm csBasel (lit "BASEL-LANDSCHAFT") = lit "BASEL-LANDSCHAFT"
  ∧ (build csBasel rowsBasel none 0 true).toOption
    = some
        ⟨[ ⟨lit "BASEL-LANDSCHAFT", [(lit "Ja", some 10)],
            none, none, none, none⟩,
           ⟨lit "BASEL-STADT", [(lit "Ja", some 10)],
            none, none, none, none⟩ ],
         some (lit "Ja"), none⟩ := by
  refine ⟨by decide, by decide⟩

theorem recoverOne_region {sel : List RawRow} {miss : Str} {x : Str × Str × Option ℚ}
    (h : x ∈ recoverOne sel miss) : x.1 = miss := by
  unfold recoverOne at h
  split at h
  · cases h
  · rcases List.mem_cons.mp h with rfl | h
    · rfl
    · rcases List.mem_cons.mp h with rfl | h
      · rfl
      · cases h

theorem pivotRowOf_region (cp : List (Str × Str × Option ℚ)) (cols : List Str)
    (yc nc : Option Str) (r : Str) : (pivotRowOf cp cols yc nc r).region = r := by
  cases yc <;> cases nc <;> rfl

theorem map_region_pivotRowOf (cp : List (Str × Str × Option ℚ)) (cols : List Str)
    (yc nc : Option Str) (rs : List Str) :
    (rs.map (pivotRowOf cp cols yc nc)).map PRow.region = rs := by
  induction rs with
  | nil => rfl
  | cons r rest ih =>
    simp only [List.map_cons, pivotRowOf_region, ih]

theorem pivotBuild_region_map (cp : List (Str × Str × Option ℚ)) :
    (pivotBuild cp).rows.map PRow.region = dedupKeepFirst (cp.map (fun x => x.1)) := by
  simp only [pivotBuild]
  exact map_region_pivotRowOf _ _ _ _ _

/-- C4 (amended): for a canonical region m with no collapsed rows, the
recovery step scans all observations of the selected title (resolved or
not): when no scanned row with category Ja or Nein contains the first
four accent-stripped characters of m, nothing is appended for m and m is
absent from the pivot table; when some row matches, one row per category
is appended for m carrying the per-category numeric sum (absent for a
category with no matching row). -/
theorem C4_recovery (sel : List RawRow) (missing : List Str)
    (collapsed : List (Str × Str × Option ℚ)) (m : Str)
    (hm : m ∈ missing)
    (hnc : ∀ x ∈ collapsed, x.1 ≠ m) :
    (recSub sel m = [] →
      (∀ x ∈ recoverAll sel missing collapsed, x.1 ≠ m) ∧
      m ∉ (pivotBuild (recoverAll sel missing collapsed)).rows.map PRow.region)
  ∧ (recSub sel m ≠ [] →
      (m, lit "Ja", aggCat (recSub sel m) (lit "Ja")) ∈ recoverAll sel missing collapsed ∧
      (m, lit "Nein", aggCat (recSub sel m) (lit "Nein")) ∈ recoverAll sel missing collapsed) := by
  constructor
  · intro hsub
    have habs : ∀ x ∈ recoverAll sel missing collapsed, x.1 ≠ m := by
      intro x hx
      rcases List.mem_append.mp hx with hxc | hxr
      · exact hnc x hxc
      · rcases List.mem_flatMap.mp hxr with ⟨m', hm', hx'⟩
        by_cases hmm : m' = m
        · subst hmm
          rw [recoverOne, if_pos hsub] at hx'
          cases hx'
        · rw [recoverOne_region hx']
          exact hmm
    refine ⟨habs, ?_⟩
    intro hcontra
    rw [pivotBuild_region_map] at hcontra
    rcases List.mem_map.mp (mem_dedupKeepFirst_subset hcontra) with ⟨x, hx, hx1⟩
    exact habs x hx hx1
  · intro hsub
    have hone : recoverOne sel m =
        [(m, lit "Ja", aggCat (recSub sel m) (lit "Ja")),
         (m, lit "Nein", aggCat (recSub sel m) (lit "Nein"))] := by
      rw [recoverOne, if_neg hsub]
    constructor
    · exact List.mem_append.mpr (Or.inr (List.mem_flatMap.mpr
        ⟨m, hm, by rw [hone]; exact List.mem_cons_self _ _⟩))
    · exact List.mem_append.mpr (Or.inr (List.mem_flatMap.mpr
        ⟨m, hm, by rw [hone]; exact List.mem_cons_of_mem _ (List.mem_cons_self _ _)⟩))

/-- Rows for the recovery witness: the spec example of two raw ZUG-STADT
rows with category Ja. -/
def selZug : List RawRow :=
  [ ⟨some (lit "T"), lit "ZUG-STADT", lit "Ja", lit "100"⟩,
    ⟨some (lit "T"), lit "ZUG-STADT", lit "Ja", lit "50"⟩ ]

/-- Witness for C4 at the spec example: recovery for the missing region
ZUG from two ZUG-STADT rows yields yes 150. -/
theorem C4_recovery_witness :
    (lit "ZUG", lit "Ja", some (150 : ℚ)) ∈
      recoverAll selZug [lit "ZUG"] [(lit "BERN", lit "Ja", some 7)]
  ∧ aggCat (recSub selZug (lit "ZUG")) (lit "Ja") = some 150 := by
  have h := (C4_recovery selZug [lit "ZUG"] [(lit "BERN", lit "Ja", some 7)] (lit "ZUG")
    (by decide) (by decide)).2 (by decide)
  have ha : aggCat (recSub selZug (lit "ZUG")) (lit "Ja") = some 150 := by decide
  exact ⟨ha ▸ h.1, ha⟩

/-! ## Claims C9 and C10: the abort conditions of build_canton_votes -/

deriving instance DecidableEq for Except

theorem selectTitle_error_iff (titles : List Str) (tf : Option Str) (ti : Int)
    (e : BuildError) :
    selectTitle titles tf ti = .error e ↔
      ((∃ f, tf = some f ∧ f ≠ [] ∧ e = .noTitleMatch f ∧
          titles.filter (fun t => hasSub (pyLower t) (pyLower f)) = []) ∨
       ((tf = none ∨ tf = some []) ∧ pyIndex titles ti = none ∧
          e = .indexOutOfRange)) := by
  cases tf with
  | none =>
    simp only [selectTitle]
    cases hpi : pyIndex titles ti with
    | some t =>
      constructor
      · intro h
        exact absurd h (by simp)
      · rintro (⟨f, hf, _⟩ | ⟨_, hpi2, _⟩)
        · exact absurd hf (by simp)
        · exact absurd hpi2 (by simp)
    | none =>
      constructor
      · intro h
        have he : e = .indexOutOfRange := (Except.error.inj h).symm
        refine Or.inr ⟨Or.inl ?_, ?_, he⟩ <;> simp
      · rintro (⟨f, hf, _⟩ | ⟨_, _, rfl⟩)
        · exact absurd hf (by simp)
        · rfl
  | some g =>
    simp only [selectTitle]
    by_cases hg : g = []
    · subst hg
      rw [if_pos rfl]
      cases hpi : pyIndex titles ti with
      | some t =>
        constructor
        · intro h
          exact absurd h (by simp)
        · rintro (⟨f, hf, hne, _⟩ | ⟨_, hpi2, _⟩)
          · exact absurd (Option.some.inj hf).symm hne
          · exact absurd hpi2 (by simp)
      | none =>
        constructor
        · intro h
          have he : e = .indexOutOfRange := (Except.error.inj h).symm
          refine Or.inr ⟨Or.inr ?_, ?_, he⟩ <;> simp
        · rintro (⟨f, hf, hne, _⟩ | ⟨_, _, rfl⟩)
          · exact absurd (Option.some.inj hf).symm hne
          · rfl
    · rw [if_neg hg]
      cases hfil : titles.filter (fun t => hasSub (pyLower t) (pyLower g)) with
      | nil =>
        constructor
        · intro h
          have he : e = .noTitleMatch g := (Except.error.inj h).symm
          exact Or.inl ⟨g, rfl, hg, he, hfil⟩
        · rintro (⟨f, hf, hne, he, hfil2⟩ | ⟨hopt, _, _⟩)
          · have hfg : f = g := (Option.some.inj hf).symm
            subst hfg
            rw [he]
          · rcases hopt with h1 | h1
            · exact absurd h1 (by simp)
            · exact absurd (Option.some.inj h1) hg
      | cons t rest =>
        constructor
        · intro h
          exact absurd h (by simp)
        · rintro (⟨f, hf, hne, he, hfil2⟩ | ⟨hopt, _, _⟩)
          · have hfg : f = g := (Option.some.inj hf).symm
            subst hfg
            rw [hfil] at hfil2
            exact absurd hfil2 (by simp)
          · rcases hopt with h1 | h1
            · exact absurd h1 (by simp)
            · exact absurd (Option.some.inj h1) hg

theorem build_eq_error_iff (cs : List Str) (rows : List RawRow) (tf : Option Str)
    (ti : Int) (rec : Bool) (e : BuildError) :
    build cs rows tf ti rec = .error e ↔
      ((titlesOf rows = [] ∧ e = .noTitles) ∨
       (titlesOf rows ≠ [] ∧ selectTitle (titlesOf rows) tf ti = .error e) ∨
       (titlesOf rows ≠ [] ∧ ∃ t, selectTitle (titlesOf rows) tf ti = .ok t ∧
         selCantonOf cs rows t = [] ∧ e = .emptyAfterReconciliation)) := by
  unfold build
  by_cases ht : titlesOf rows = []
  · rw [if_pos ht]
    constructor
    · intro h
      exact Or.inl ⟨ht, (Except.error.inj h).symm⟩
    · rintro (⟨_, rfl⟩ | ⟨hne, _⟩ | ⟨hne, _⟩)
      · rfl
      · exact absurd ht hne
      · exact absurd ht hne
  · rw [if_neg ht]
    cases hsel : selectTitle (titlesOf rows) tf ti with
    | error e' =>
      dsimp only
      constructor
      · intro h
        have he : e' = e := Except.error.inj h
        exact Or.inr (Or.inl ⟨ht, by rw [he]⟩)
      · rintro (⟨h1, _⟩ | ⟨_, h2⟩ | ⟨_, t, h3, _, _⟩)
        · exact absurd h1 ht
        · rw [Except.error.inj h2]
        · exact absurd h3 (by simp)
    | ok t =>
      dsimp only
      by_cases hsc : selCantonOf cs rows t = []
      · rw [if_pos hsc]
        constructor
        · intro h
          exact Or.inr (Or.inr ⟨ht, t, rfl, hsc, (Except.error.inj h).symm⟩)
        · rintro (⟨h1, _⟩ | ⟨_, h2⟩ | ⟨_, t', h3, h4, rfl⟩)
          · exact absurd h1 ht
          · exact absurd h2 (by simp)
          · rfl
      · rw [if_neg hsc]
        constructor
        · intro h
          exact absurd h (by simp)
        · rintro (⟨h1, _⟩ | ⟨_, h2⟩ | ⟨_, t', h3, h4, _⟩)
          · exact absurd h1 ht
          · exact absurd h2 (by simp)
          · have htt : t = t' := Except.ok.inj h3
            subst htt
            exact absurd h4 hsc

/-- Single-title input used by the C9 counterexample. -/
def rowsOneTitle : List RawRow :=
  [ ⟨some (lit "T"), lit "BERN", lit "Ja", lit "5"⟩ ]

/-- C9 counterexample: with one title, a resolvable canton row, no title
filter and the out-of-range index 5, the run aborts with an index error
even though none of the three declared conditions holds: the title list
is nonempty (second conjunct), no filter was requested, and canton rows
survive reconciliation for the only title (third conjunct). -/
theorem C9_counterexample :
    build [lit "BERN"] rowsOneTitle none 5 true = .error .indexOutOfRange
  ∧ titlesOf rowsOneTitle = [lit "T"]
  ∧ selCantonOf [lit "BERN"] rowsOneTitle (lit "T") ≠ [] := by
  refine ⟨by decide, by decide, by decide⟩

/-- C9 (amended): build_canton_votes aborts with an error, returning no
partial result, exactly in these cases: no distinct titles (noTitles); a
truthy title filter matching no title, reported with the filter text
(noTitleMatch); no title filter (or an empty one) and a title index out
of Python list range (the IndexError case, absent from the claim); and
zero canton-level rows after reconciliation of the selected title
(emptyAfterReconciliation). -/
theorem C9_error_cases (cs : List Str) (rows : List RawRow) (tf : Option Str)
    (ti : Int) (rec : Bool) (e : BuildError) :
    build cs rows tf ti rec = .error e ↔
      ((titlesOf rows = [] ∧ e = .noTitles) ∨
       (titlesOf rows ≠ [] ∧
         ((∃ f, tf = some f ∧ f ≠ [] ∧ e = .noTitleMatch f ∧
             (titlesOf rows).filter (fun t => hasSub (pyLower t) (pyLower f)) = []) ∨
          ((tf = none ∨ tf = some []) ∧ pyIndex (titlesOf rows) ti = none ∧
             e = .indexOutOfRange))) ∨
       (titlesOf rows ≠ [] ∧ ∃ t, selectTitle (titlesOf rows) tf ti = .ok t ∧
         selCantonOf cs rows t = [] ∧ e = .emptyAfterReconciliation)) := by
  rw [build_eq_error_iff, selectTitle_error_iff]

/-- Witness for C9: the three declared error conditions, instantiated on
concrete inputs through the characterisation. -/
theorem C9_error_cases_witness :
    build [lit "BERN"] ([] : List RawRow) none 0 true = .error .noTitles
  ∧ build [lit "BERN"] rowsOneTitle (some (lit "XYZ")) 0 true
      = .error (.noTitleMatch (lit "XYZ"))
  ∧ build ([] : List Str) rowsOneTitle none 0 true = .error .emptyAfterReconciliation := by
  refine ⟨?_, ?_, ?_⟩
  · exact (C9_error_cases [lit "BERN"] [] none 0 true .noTitles).mpr
      (Or.inl ⟨by decide, rfl⟩)
  · exact (C9_error_cases [lit "BERN"] rowsOneTitle (some (lit "XYZ")) 0 true
      (.noTitleMatch (lit "XYZ"))).mpr
      (Or.inr (Or.inl ⟨by decide, Or.inl ⟨lit "XYZ", rfl, by decide, rfl, by decide⟩⟩))
  · exact (C9_error_cases [] rowsOneTitle none 0 true .emptyAfterReconciliation).mpr
      (Or.inr (Or.inr ⟨by decide, lit "T", by decide, by decide, rfl⟩))

/-- C10: with at least one title and no filter, a title index outside
the Python range [-N, N-1] aborts with the index error (a kind distinct
from the three declared errors), and a negative in-range index silently
selects the title counted from the end of the sorted title list. -/
theorem C10_title_index (cs : List Str) (rows : List RawRow) (ti : Int) (rec : Bool)
    (hne : titlesOf rows ≠ []) :
    ((((titlesOf rows).length : Int) ≤ ti ∨ ti < -((titlesOf rows).length : Int)) →
      build cs rows none ti rec = .error .indexOutOfRange)
  ∧ (-((titlesOf rows).length : Int) ≤ ti → ti < 0 →
      ∃ t, (titlesOf rows).get? (((titlesOf rows).length : Int) + ti).toNat = some t ∧
        selectTitle (titlesOf rows) none ti = .ok t) := by
  constructor
  · intro hoob
    have hpi : pyIndex (titlesOf rows) ti = none := by
      unfold pyIndex
      rcases hoob with hge | hlt
      · have h0 : (0 : Int) ≤ ti := le_trans (Int.natCast_nonneg _) hge
        rw [if_pos h0]
        apply List.get?_eq_none.mpr
        omega
      · have h0 : ¬ (0 : Int) ≤ ti := by omega
        rw [if_neg h0]
        have hj : ¬ (0 : Int) ≤ ((titlesOf rows).length : Int) + ti := by omega
        rw [if_neg hj]
    have hsel : selectTitle (titlesOf rows) none ti = .error .indexOutOfRange := by
      simp only [selectTitle, hpi]
    simp only [build, if_neg hne, hsel]
  · intro hlo hneg
    have h0 : ¬ (0 : Int) ≤ ti := not_le.mpr hneg
    have hj : (0 : Int) ≤ ((titlesOf rows).length : Int) + ti := by omega
    have hlt : (((titlesOf rows).length : Int) + ti).toNat < (titlesOf rows).length := by
      omega
    refine ⟨(titlesOf rows).get ⟨_, hlt⟩, List.get?_eq_get hlt, ?_⟩
    simp only [selectTitle, pyIndex, if_neg h0, if_pos hj, List.get?_eq_get hlt]

/-- Two-title input used by the C10 witness. -/
def rowsTwoTitles : List RawRow :=
  [ ⟨some (lit "B"), lit "BERN", lit "Ja", lit "1"⟩,
    ⟨some (lit "A"), lit "BERN", lit "Ja", lit "2"⟩ ]

/-- Witness for C10: with the sorted titles A, B, index 5 aborts with
the index error and index -1 selects B, the last title. -/
theorem C10_title_index_witness :
    build [lit "BERN"] rowsTwoTitles none 5 true = .error .indexOutOfRange
  ∧ selectTitle (titlesOf rowsTwoTitles) none (-1) = .ok (lit "B") := by
  refine ⟨(C10_title_index [lit "BERN"] rowsTwoTitles 5 true (by decide)).1 (by decide), ?_⟩
  obtain ⟨t, hget, hsel⟩ :=
    (C10_title_index [lit "BERN"] rowsTwoTitles (-1) true (by decide)).2
      (by decide) (by decide)
  have hg2 : (titlesOf rowsTwoTitles).get?
      (((titlesOf rowsTwoTitles).length : Int) + (-1)).toNat = some (lit "B") := by decide
  have htB : t = lit "B" := Option.some.inj (hget.symm.trans hg2)
  rw [← htB]
  exact hsel

end ReferendumExplorer
